import Mathlib

/-!
Verification of the Concentration card game (`src/concentration.py`).

The game state machine (class `MatchGame`) is embedded shallowly:

* Python integers become `ℤ`/`ℕ`; the half-step turn counter `self.turns`
  (a float moving in exact steps of `0.5`, hence exactly representable)
  becomes `ℚ`, and the Python test `turns % 1 == 0` becomes `wholeTurn`.
* A click on the canvas delivers the tkinter item under the pointer and its
  first tag, which is the image name assigned to that tile; a click input is
  therefore modelled as a pair `(tile id, image name)`.
* The program is single threaded and the delayed callbacks scheduled with
  `canvas.after` always fire while input is disabled, so the resolution of a
  second click (hide/recolor after the delay, then rebind or show the final
  score) is collapsed into the same step; `bound` records whether the
  `<Button-1>` handler is bound and `terminal` whether the game-over text
  is displayed.
* `tkinter.Canvas.create_image` returns a fresh positive item id; the canvas
  holds the 16 tile rectangles (ids 1..16), so image ids start at 17 and are
  tracked with `nextId`.  Attributes `prev_image`, `prev_name`, `prev_tile`
  that `__init__` leaves unset are `none`; reading an unset attribute raises
  `AttributeError`, modelled with `Except.error`.
* `canvas_images` lists the ids of the image items currently on the canvas
  (the items `appear` creates above the 16 tile rectangles).  `restart`
  consults it: `canvas.delete("image")` removes nothing because images are
  tagged with their image names, so a still-displayed image makes the
  restart re-tag loop over `find_all()` fail before any value is reset.
* `random.shuffle` is modelled by quantifying over all permutations of the
  shuffled list; `os.listdir` returns the (distinct) entries of the folder.
-/

namespace Concentration

/-- Extension part of `os.path.splitext` for a bare file name (one with no
path separator, as returned by `os.listdir`): the suffix starting at the last
dot, except that a name whose characters before that dot are all dots has no
extension. -/
def splitext_ext (p : List Char) : List Char :=
  match p.reverse.findIdx? (fun c => c == '.') with
  | none => []
  | some i =>
    if (p.reverse.drop (i + 1)).any (fun c => !(c == '.')) then
      (p.reverse.take (i + 1)).reverse
    else []

/-- The filter `os.path.splitext(name)[-1] == ".gif"` used on lines 54-55 and
237-238 of `concentration.py`. -/
def hasGifExt (nm : String) : Bool := splitext_ext nm.data == ".gif".data

/-- The list comprehension selecting the gif entries of a folder listing. -/
def gifNames (entries : List String) : List String :=
  entries.filter (fun nm => hasGifExt nm)

/-- `validate_images` (lines 227-243), for a directory path: `folder_ex`
models `os.path.exists(image_folder)` and `entries` models
`os.listdir(image_folder)`.  `argparse` turns an `ArgumentTypeError`
(modelled as `Except.error`) into a usage error at startup. -/
def validate_images (folder_ex : Bool) (entries : List String)
    (path : String) : Except String String :=
  if folder_ex = false then
    .error (path ++ " is not a valid folder")
  else if (gifNames entries).length < 8 then
    .error (path ++ " must contain at least 8 gif images")
  else
    .ok path

/-- `self.image_names = 2 * folder_images` (line 56): two copies of every
gif name of the folder. -/
def image_names (folder_images : List String) : List String :=
  folder_images ++ folder_images

/-- Lines 80-83 (and 110-113 after a restart): the 16 canvas tiles, in
creation order, each take the next entry of the shuffled name list. -/
def assignTiles (shuffled : List String) : List String := shuffled.take 16

/-- The mutable state of a `MatchGame` object, together with the GUI state
the handlers consult: the canvas binding (`bound`), the game-over display
(`terminal`), and the ids of the image items currently on the canvas above
the 16 tile rectangles (`canvas_images`, in creation order). -/
structure Game where
  score : ℤ
  turns : ℚ
  delay : ℤ
  remaining_tiles : ℤ
  color : String
  prev_name : Option String
  prev_tile : Option ℕ
  prev_image : Option ℕ
  nextId : ℕ
  bound : Bool
  terminal : Bool
  canvas_images : List ℕ
deriving DecidableEq

/-- The float literal `.5` by which `play` advances `self.turns`. -/
def half : ℚ := 1 / 2

/-- The Python test `self.turns % 1 == 0`: for a float moving in exact half
steps this holds exactly when the value is an integer. -/
def wholeTurn (q : ℚ) : Bool := q.den == 1

/-- `MatchGame.__init__` (state part, lines 45-93): score 100, no turns,
16 tiles, delay 1000 fast / 3000 slow, `prev_*` attributes unset, click
handler bound, no game-over display. -/
def mkGame (player_color : String) (fast : Bool) : Game :=
  { score := 100
    turns := 0
    delay := if fast then 1000 else 3000
    remaining_tiles := 16
    color := player_color
    prev_name := none
    prev_tile := none
    prev_image := none
    nextId := 17
    bound := true
    terminal := false
    canvas_images := [] }

/-- A fresh fast blue game, used as the start state of click sequences. -/
def gameInit : Game := mkGame "blue" true

/-- Net canvas effect of a second click (lines 149 and 154-162): `appear`
places the current image (fresh id `curr`) and the delayed callbacks then
remove it and the recorded previous image.  The first-tile branch always
sets `prev_image` together with `prev_name`, so on every reachable second
click `prev` is a `some`. -/
def resolvePairImages (l : List ℕ) (curr : ℕ) (prev : Option ℕ) : List ℕ :=
  match prev with
  | some ip => ((l ++ [curr]).erase curr).erase ip
  | none => (l ++ [curr]).erase curr

/-- `MatchGame.play` (lines 122-173) for a click on tile `tile` bearing image
name `image_name`.  Mirrors the source order: increment `turns` by `.5`;
deduct 10 when `turns > 13 and turns % 1 == 0`; on a first click (`turns % 1
!= 0`) reveal the image and record it; on a second click compare the image
names, decrement `remaining_tiles` by 2 on a match, and afterwards either
show the final score with input left unbound (no tiles remain) or re-enable
input after the delay. -/
def play (g : Game) (tile : ℕ) (image_name : String) : Except String Game :=
  let turns := g.turns + half
  let score := if wholeTurn turns = true ∧ 13 < turns then g.score - 10 else g.score
  if wholeTurn turns = false then
    .ok { g with
      turns := turns
      score := score
      prev_image := some g.nextId
      nextId := g.nextId + 1
      prev_name := some image_name
      prev_tile := some tile
      canvas_images := g.canvas_images ++ [g.nextId] }
  else
    match g.prev_name with
    | none => .error "AttributeError: MatchGame instance has no attribute prev_name"
    | some pname =>
      let remaining := if image_name = pname then g.remaining_tiles - 2 else g.remaining_tiles
      if remaining = 0 then
        .ok { g with
          turns := turns
          score := score
          remaining_tiles := remaining
          nextId := g.nextId + 1
          bound := false
          terminal := true
          canvas_images := resolvePairImages g.canvas_images g.nextId g.prev_image }
      else
        .ok { g with
          turns := turns
          score := score
          remaining_tiles := remaining
          nextId := g.nextId + 1
          bound := true
          canvas_images := resolvePairImages g.canvas_images g.nextId g.prev_image }

/-- Delivery of one `<Button-1>` event: the handler runs only while it is
bound; a click on an unbound canvas leaves the state unchanged. -/
def clickStep (g : Game) (c : ℕ × String) : Except String Game :=
  if g.bound = true then play g c.1 c.2 else .ok g

/-- Delivery of a sequence of click events. -/
def run (g : Game) : List (ℕ × String) → Except String Game
  | [] => .ok g
  | c :: cs =>
    match clickStep g c with
    | .ok g' => run g' cs
    | .error e => .error e

/-- `MatchGame.restart` (lines 95-120).  Reading `self.prev_image` on line
103 raises `AttributeError` when no first tile was ever clicked (`__init__`
does not set it).  Otherwise `canvas.after(0, ...)` only schedules the
deletion of `prev_image`, and `canvas.delete("image")` on line 105 removes
nothing: `appear` tags image items with their image name, never with the
literal tag `"image"` (the loop on lines 77-78 configures by image-name
tags before any item carries one, a no-op).  The re-tag loop on lines
111-113 therefore walks the 16 tile rectangles plus every still-displayed
image item: with any image item left on the canvas it fails before the
resets on lines 115-118 (`next` exhausts the 16 shuffled names when the
folder has exactly 8 gifs, raising `StopIteration`; with more gifs,
configuring `fill` on an image item raises `TclError`).  Only with a clean
canvas are the images reshuffled (covered by the `assignTiles` model),
score, turns and tile count reset, the score display restored over any
game-over text, and the click handler rebound. -/
def restart (g : Game) : Except String Game :=
  match g.prev_image with
  | none => .error "AttributeError: MatchGame instance has no attribute prev_image"
  | some _ =>
    if g.canvas_images = [] then
      .ok { g with
        score := 100
        turns := 0
        remaining_tiles := 16
        bound := true
        terminal := false }
    else
      .error "StopIteration: the restart re-tag loop hits a still-displayed image"

/-- Number of completed click pairs, paired off in order of delivery, whose
two clicks carry the same image name. -/
def eqPairs : List (ℕ × String) → ℕ
  | a :: b :: rest => (if a.2 = b.2 then 1 else 0) + eqPairs rest
  | _ => 0

/-- Invariant of every reachable `Game` state: the turn counter is a half
integer; the score is determined by the number of completed pairs
`⌊turns⌋`; the handler is bound exactly while the game-over display is not
shown, which happens exactly when no tiles remain; the tile count moves in
steps of 2 between 16 and 0; mid-pair the previous name is recorded; after
the first click `prev_image` stays set; and the canvas holds no image item
at a pair boundary and exactly the revealed first-click image (the one
recorded in `prev_image`) mid-pair. -/
def Inv (g : Game) : Prop :=
  (∃ k : ℕ, g.turns = (k : ℚ) / 2) ∧
  g.score = 100 - 10 * max 0 (⌊g.turns⌋ - 13) ∧
  g.bound = !g.terminal ∧
  (g.terminal = true ↔ g.remaining_tiles = 0) ∧
  (∃ j : ℕ, j ≤ 8 ∧ g.remaining_tiles = 16 - 2 * (j : ℤ)) ∧
  (wholeTurn g.turns = false → g.prev_name.isSome = true) ∧
  (half ≤ g.turns → g.prev_image.isSome = true) ∧
  ((wholeTurn g.turns = true → g.canvas_images = []) ∧
    (wholeTurn g.turns = false → ∃ i, g.prev_image = some i ∧ g.canvas_images = [i]))

/-- A folder listing with exactly 8 gif images. -/
def entries8 : List String :=
  ["a.gif", "b.gif", "c.gif", "d.gif", "e.gif", "f.gif", "g.gif", "h.gif"]

/-- A folder listing with 9 gif images; `validate_images` accepts it. -/
def gifs9 : List String :=
  ["a.gif", "b.gif", "c.gif", "d.gif", "e.gif", "f.gif", "g.gif", "h.gif", "i.gif"]

/-- A possible result of `random.shuffle` on `image_names gifs9` that places
both copies of `i.gif` beyond the 16 tiles. -/
def shuffled18 : List String :=
  ["a.gif", "a.gif", "b.gif", "b.gif", "c.gif", "c.gif", "d.gif", "d.gif",
   "e.gif", "e.gif", "f.gif", "f.gif", "g.gif", "g.gif", "h.gif", "h.gif",
   "i.gif", "i.gif"]

/-- Two clicks on distinct tiles bearing distinct images. -/
def clicks2 : List (ℕ × String) := [(1, "a.gif"), (2, "b.gif")]

/-- The state after delivering `clicks2` to a fresh game. -/
def game2 : Game :=
  { score := 100
    turns := 1
    delay := 1000
    remaining_tiles := 16
    color := "blue"
    prev_name := some "a.gif"
    prev_tile := some 1
    prev_image := some 17
    nextId := 19
    bound := true
    terminal := false
    canvas_images := [] }

/-- Sixteen clicks on the very same tile (tile 1, bearing `a.gif`); legal in
the GUI, since a tile stays clickable after its images are hidden. -/
def sameTileClicks : List (ℕ × String) := List.replicate 16 (1, "a.gif")

/-- The state after delivering `sameTileClicks` to a fresh game: every pair
is treated as a match, so no tiles remain although only the identity
`a.gif` was ever clicked. -/
def cexGame : Game :=
  { score := 100
    turns := 8
    delay := 1000
    remaining_tiles := 0
    color := "blue"
    prev_name := some "a.gif"
    prev_tile := some 1
    prev_image := some 31
    nextId := 33
    bound := false
    terminal := true
    canvas_images := [] }

/-- The state after a single first click on tile 1 bearing `a.gif`. -/
def afterFirstClick : Game :=
  { gameInit with
    turns := 1/2
    prev_name := some "a.gif"
    prev_tile := some 1
    prev_image := some 17
    nextId := 18
    canvas_images := [17] }

/-- A state with `prev_image` set and a clean canvas, so `restart`
succeeds. -/
def restartableGame : Game := { cexGame with score := 40, turns := 20 }

/-- The result of `restart` on `restartableGame`. -/
def restartedGame : Game :=
  { restartableGame with
    score := 100
    turns := 0
    remaining_tiles := 16
    bound := true
    terminal := false }

deriving instance DecidableEq for Except

theorem wholeTurn_iff (q : ℚ) : wholeTurn q = true ↔ q.den = 1 := by
  simp [wholeTurn]

theorem wholeTurn_eq_false_iff (q : ℚ) : wholeTurn q = false ↔ ¬q.den = 1 := by
  simp [wholeTurn]

theorem eq_num_of_den_one {q : ℚ} (h : q.den = 1) : q = (q.num : ℚ) := by
  conv_lhs => rw [← Rat.num_div_den q]
  rw [h]
  simp

theorem den_intCast_add_half (z : ℤ) : ((z : ℚ) + 1 / 2).den ≠ 1 := by
  intro h
  have h2 : ((z : ℚ) + 1 / 2) = (((z : ℚ) + 1 / 2).num : ℚ) := eq_num_of_den_one h
  have h3 : (2 * (((z : ℚ) + 1 / 2).num) : ℚ) = 2 * (z : ℚ) + 1 := by
    rw [← h2]; ring
  have h4 : 2 * ((z : ℚ) + 1 / 2).num = 2 * z + 1 := by exact_mod_cast h3
  omega

theorem den_natCast_add_half (m : ℕ) : (((m : ℕ) : ℚ) + 1 / 2).den ≠ 1 := by
  have h := den_intCast_add_half (m : ℤ)
  simpa using h

theorem wholeTurn_natCast (m : ℕ) : wholeTurn ((m : ℕ) : ℚ) = true := by
  rw [wholeTurn_iff, Rat.den_natCast]

theorem wholeTurn_add_half {q : ℚ} (h : wholeTurn q = true) :
    wholeTurn (q + half) = false := by
  rw [wholeTurn_iff] at h
  rw [wholeTurn_eq_false_iff, half]
  have hq := eq_num_of_den_one h
  rw [hq]
  exact den_intCast_add_half q.num

theorem turns_even (m : ℕ) : (((2 * m : ℕ) : ℚ)) / 2 = (m : ℚ) := by
  push_cast; ring

theorem turns_odd (m : ℕ) : (((2 * m + 1 : ℕ) : ℚ)) / 2 = (m : ℚ) + half := by
  rw [half]; push_cast; ring

theorem half_step (k : ℕ) : ((k : ℚ)) / 2 + half = ((k + 1 : ℕ) : ℚ) / 2 := by
  rw [half]; push_cast; ring

theorem add_half_add_half (m : ℕ) : ((m : ℚ)) + half + half = ((m + 1 : ℕ) : ℚ) := by
  rw [half]; push_cast; ring

theorem wholeTurn_div_two (k : ℕ) : wholeTurn ((k : ℚ) / 2) = true ↔ 2 ∣ k := by
  constructor
  · intro h
    by_contra hodd
    obtain ⟨m, hm⟩ : ∃ m, k = 2 * m + 1 := ⟨k / 2, by omega⟩
    rw [hm, turns_odd, wholeTurn_iff, half] at h
    exact den_natCast_add_half m h
  · rintro ⟨m, hm⟩
    have hm' : k = 2 * m := by omega
    rw [hm', turns_even]
    exact wholeTurn_natCast m

theorem floor_natCast_q (m : ℕ) : ⌊((m : ℕ) : ℚ)⌋ = (m : ℤ) := by
  exact_mod_cast Int.floor_natCast m

theorem floor_add_half (m : ℕ) : ⌊((m : ℕ) : ℚ) + half⌋ = (m : ℤ) := by
  rw [half, Int.floor_eq_iff]
  constructor
  · push_cast
    linarith
  · push_cast
    linarith

theorem lt_add_half_iff (m : ℕ) : (13 : ℚ) < (m : ℚ) + half ↔ 13 ≤ m := by
  rw [half]
  constructor
  · intro h
    by_contra hc
    have hm : (m : ℚ) ≤ 12 := by exact_mod_cast Nat.cast_le.mpr (by omega : m ≤ 12)
    linarith
  · intro h
    have hm : (13 : ℚ) ≤ (m : ℚ) := by exact_mod_cast h
    linarith

theorem lt_natCast_iff (m : ℕ) : (13 : ℚ) < ((m : ℕ) : ℚ) ↔ 13 < m := by
  constructor <;> intro h <;> exact_mod_cast h

theorem run_nil (g : Game) : run g [] = .ok g := rfl

theorem run_cons (g : Game) (c : ℕ × String) (cs : List (ℕ × String)) :
    run g (c :: cs) =
      match clickStep g c with
      | .ok g' => run g' cs
      | .error e => .error e := rfl

theorem run_cons_ok {g g₁ : Game} {c : ℕ × String} {cs : List (ℕ × String)}
    (h : clickStep g c = .ok g₁) : run g (c :: cs) = run g₁ cs := by
  rw [run_cons, h]

theorem run_unbound {g : Game} (h : g.bound = false) :
    ∀ cs : List (ℕ × String), run g cs = .ok g := by
  intro cs
  induction cs with
  | nil => rfl
  | cons c cs ih =>
    rw [run_cons]
    simp only [clickStep, h]
    exact ih

theorem play_first {g : Game} {t : ℕ} {nm : String}
    (h : wholeTurn (g.turns + half) = false) :
    play g t nm = .ok { g with
      turns := g.turns + half
      prev_image := some g.nextId
      nextId := g.nextId + 1
      prev_name := some nm
      prev_tile := some t
      canvas_images := g.canvas_images ++ [g.nextId] } := by
  have hs : ¬(wholeTurn (g.turns + half) = true ∧ 13 < g.turns + half) := by
    rintro ⟨h1, -⟩
    rw [h] at h1
    cases h1
  simp only [play]
  rw [if_pos h, if_neg hs]

theorem play_second_cases (g : Game) (t : ℕ) (nm pn : String)
    (hw : wholeTurn (g.turns + half) = true) (hpn : g.prev_name = some pn) :
    ∃ g', play g t nm = .ok g' ∧
      g'.turns = g.turns + half ∧
      g'.score = (if 13 < g.turns + half then g.score - 10 else g.score) ∧
      g'.remaining_tiles =
        (if nm = pn then g.remaining_tiles - 2 else g.remaining_tiles) ∧
      g'.prev_name = g.prev_name ∧
      g'.prev_tile = g.prev_tile ∧
      g'.prev_image = g.prev_image ∧
      g'.bound = (if g'.remaining_tiles = 0 then false else true) ∧
      g'.terminal = (if g'.remaining_tiles = 0 then true else g.terminal) ∧
      g'.delay = g.delay ∧
      g'.color = g.color ∧
      g'.canvas_images = resolvePairImages g.canvas_images g.nextId g.prev_image := by
  have hnf : ¬(wholeTurn (g.turns + half) = false) := by
    rw [hw]
    exact fun hc => by cases hc
  by_cases hz : (if nm = pn then g.remaining_tiles - 2 else g.remaining_tiles) = 0
  · refine ⟨{ g with
        turns := g.turns + half
        score := if 13 < g.turns + half then g.score - 10 else g.score
        remaining_tiles := if nm = pn then g.remaining_tiles - 2 else g.remaining_tiles
        nextId := g.nextId + 1
        bound := false
        terminal := true
        canvas_images := resolvePairImages g.canvas_images g.nextId g.prev_image },
      ?_, ?_, ?_, ?_, ?_, ?_, ?_, ?_, ?_, ?_, ?_, ?_⟩
    · simp only [play]
      rw [if_neg hnf, hpn]
      simp only [if_pos hz, hw]
      simp
    all_goals simp [hz]
  · refine ⟨{ g with
        turns := g.turns + half
        score := if 13 < g.turns + half then g.score - 10 else g.score
        remaining_tiles := if nm = pn then g.remaining_tiles - 2 else g.remaining_tiles
        nextId := g.nextId + 1
        bound := true
        canvas_images := resolvePairImages g.canvas_images g.nextId g.prev_image },
      ?_, ?_, ?_, ?_, ?_, ?_, ?_, ?_, ?_, ?_, ?_, ?_⟩
    · simp only [play]
      rw [if_neg hnf, hpn]
      simp only [if_neg hz, hw]
      simp
    all_goals simp [hz]

theorem erase_pair_nil (i c : ℕ) : ((([i] ++ [c]).erase c).erase i) = [] := by
  by_cases h : i = c
  · subst h
    simp
  · simp [List.erase_cons, h]

theorem clickStep_total {g : Game} (hg : Inv g) (c : ℕ × String) :
    ∃ g', clickStep g c = .ok g' ∧ Inv g' ∧
      g.turns ≤ g'.turns ∧ g'.score ≤ g.score ∧
      (g.prev_image.isSome = true → g'.prev_image.isSome = true) ∧
      (g.bound = true → g'.turns = g.turns + half) ∧
      (g.bound = false → g' = g) := by
  obtain ⟨⟨k, hk⟩, hscore, hbt, hterm, ⟨j, hj, hrem⟩, hpn, hpi, hcanvas⟩ := hg
  by_cases hb : g.bound = true
  case neg =>
    have hbf : g.bound = false := by
      cases hbool : g.bound
      · rfl
      · exact absurd hbool hb
    refine ⟨g, by simp [clickStep, hbf], ?_, le_refl _, le_refl _, fun h => h, ?_, fun _ => rfl⟩
    · exact ⟨⟨k, hk⟩, hscore, hbt, hterm, ⟨j, hj, hrem⟩, hpn, hpi, hcanvas⟩
    · intro h
      rw [hbf] at h
      exact Bool.noConfusion h
  case pos =>
    have hcs : clickStep g c = play g c.1 c.2 := by simp [clickStep, hb]
    rcases Nat.even_or_odd k with he | ho
    · -- even number of half-steps: this click is a first click
      obtain ⟨m, hm0⟩ := he
      have hm : k = 2 * m := by omega
      have hturns : g.turns = (m : ℚ) := by rw [hk, hm, turns_even]
      have hwf : wholeTurn (g.turns + half) = false := by
        rw [hturns]
        exact wholeTurn_add_half (wholeTurn_natCast m)
      refine ⟨_, by rw [hcs, play_first hwf], ?_, ?_, ?_, ?_, ?_, ?_⟩
      · refine ⟨⟨k + 1, ?_⟩, ?_, hbt, hterm, ⟨j, hj, hrem⟩, fun _ => rfl, fun _ => rfl,
          ?_, ?_⟩
        · show g.turns + half = ((k + 1 : ℕ) : ℚ) / 2
          rw [hk, half_step]
        · show g.score = 100 - 10 * max 0 (⌊g.turns + half⌋ - 13)
          rw [hturns, floor_add_half]
          rw [hturns, floor_natCast_q] at hscore
          exact hscore
        · intro hcontra
          have hcontra' : wholeTurn (g.turns + half) = true := hcontra
          rw [hwf] at hcontra'
          exact Bool.noConfusion hcontra'
        · intro _
          refine ⟨g.nextId, rfl, ?_⟩
          show g.canvas_images ++ [g.nextId] = [g.nextId]
          have hce : g.canvas_images = [] := by
            apply hcanvas.1
            rw [hturns]
            exact wholeTurn_natCast m
          rw [hce]
          rfl
      · show g.turns ≤ g.turns + half
        rw [half]
        linarith
      · exact le_refl _
      · exact fun _ => rfl
      · exact fun _ => rfl
      · intro h
        rw [hb] at h
        exact Bool.noConfusion h
    · -- odd number of half-steps: this click is a second click
      obtain ⟨m, hm⟩ := ho
      have hturns : g.turns = (m : ℚ) + half := by rw [hk, hm, turns_odd]
      have hwt : wholeTurn g.turns = false := by
        rw [wholeTurn_eq_false_iff, hturns, half]
        exact den_natCast_add_half m
      obtain ⟨pn, hpn'⟩ := Option.isSome_iff_exists.mp (hpn hwt)
      have hww : wholeTurn (g.turns + half) = true := by
        rw [hturns, add_half_add_half]
        exact wholeTurn_natCast (m + 1)
      obtain ⟨g', hplay, hts, hsc, hrm, hpname, hptile, hpimg, hbd, htm, hdl, hcl, hcv⟩ :=
        play_second_cases g c.1 c.2 pn hww hpn'
      have hterm_false : g.terminal = false := by
        have h2 := hbt
        rw [hb] at h2
        cases htb : g.terminal
        · rfl
        · rw [htb] at h2
          simp at h2
      have hr_ne : g.remaining_tiles ≠ 0 := by
        intro h0
        have h1 := hterm.mpr h0
        rw [hterm_false] at h1
        exact Bool.noConfusion h1
      have hj7 : j ≤ 7 := by
        by_contra hc
        have hj8 : j = 8 := by omega
        apply hr_ne
        rw [hrem, hj8]
        norm_num
      have htsN : g'.turns = ((m + 1 : ℕ) : ℚ) := by
        rw [hts, hturns, add_half_add_half]
      have hfloor_new : ⌊g'.turns⌋ = (m : ℤ) + 1 := by
        rw [htsN, floor_natCast_q]
        push_cast
        ring
      have hfloor_old : ⌊g.turns⌋ = (m : ℤ) := by
        rw [hturns]
        exact floor_add_half m
      have hcond : ((13 : ℚ) < g.turns + half) ↔ 13 ≤ m := by
        have he2 : g.turns + half = ((m + 1 : ℕ) : ℚ) := by
          rw [hturns, add_half_add_half]
        rw [he2, lt_natCast_iff]
        omega
      refine ⟨g', by rw [hcs]; exact hplay, ?_, ?_, ?_, ?_, ?_, ?_⟩
      · refine ⟨⟨k + 1, by rw [hts, hk, half_step]⟩, ?_, ?_, ?_, ?_, ?_, ?_, ?_, ?_⟩
        · rw [hfloor_old] at hscore
          rw [hsc, hscore, hfloor_new]
          by_cases h13 : 13 ≤ m
          · rw [if_pos (hcond.mpr h13)]
            rw [max_def, max_def]
            split_ifs <;> omega
          · rw [if_neg (fun hc => h13 (hcond.mp hc))]
            rw [max_def, max_def]
            split_ifs <;> omega
        · rw [hbd, htm]
          by_cases hz : g'.remaining_tiles = 0 <;> simp [hz, hterm_false]
        · rw [htm]
          by_cases hz : g'.remaining_tiles = 0 <;> simp [hz, hterm_false]
        · by_cases hmm : c.2 = pn
          · refine ⟨j + 1, by omega, ?_⟩
            rw [hrm, if_pos hmm, hrem]
            push_cast
            ring
          · exact ⟨j, hj, by rw [hrm, if_neg hmm]; exact hrem⟩
        · intro hwf'
          rw [htsN, wholeTurn_natCast] at hwf'
          exact Bool.noConfusion hwf'
        · intro _
          rw [hpimg]
          apply hpi
          rw [hturns]
          have hm0 : (0 : ℚ) ≤ (m : ℚ) := Nat.cast_nonneg m
          linarith
        · intro _
          rw [hcv]
          obtain ⟨i, hpieq, hcveq⟩ := hcanvas.2 hwt
          rw [hpieq, hcveq]
          show (((([i] : List ℕ) ++ [g.nextId]).erase g.nextId).erase i) = []
          exact erase_pair_nil i g.nextId
        · intro hcontra
          rw [hts, hww] at hcontra
          exact Bool.noConfusion hcontra
      · rw [hts]
        show g.turns ≤ g.turns + half
        rw [half]
        linarith
      · rw [hsc]
        split_ifs <;> omega
      · intro h
        rw [hpimg]
        exact h
      · exact fun _ => hts
      · intro h
        rw [hb] at h
        exact Bool.noConfusion h

theorem inv_mkGame (pc : String) (fast : Bool) : Inv (mkGame pc fast) := by
  refine ⟨⟨0, ?_⟩, ?_, ?_, ?_, ⟨0, ?_, ?_⟩, ?_, ?_, ?_, ?_⟩
  · show (0 : ℚ) = ((0 : ℕ) : ℚ) / 2
    norm_num
  · show (100 : ℤ) = 100 - 10 * max 0 (⌊(0 : ℚ)⌋ - 13)
    rw [Int.floor_zero, max_def]
    norm_num
  · show true = !false
    rfl
  · show (false = true ↔ (16 : ℤ) = 0)
    constructor
    · intro h
      exact Bool.noConfusion h
    · intro h
      exact absurd h (by norm_num)
  · exact Nat.zero_le 8
  · show (16 : ℤ) = 16 - 2 * ((0 : ℕ) : ℤ)
    norm_num
  · show wholeTurn (0 : ℚ) = false → (none : Option String).isSome = true
    decide
  · show half ≤ (0 : ℚ) → (none : Option ℕ).isSome = true
    rw [half]
    intro h
    norm_num at h
  · show wholeTurn (0 : ℚ) = true → ([] : List ℕ) = []
    exact fun _ => rfl
  · show wholeTurn (0 : ℚ) = false → ∃ i, (none : Option ℕ) = some i ∧ ([] : List ℕ) = [i]
    intro h
    exact absurd h (by decide)

theorem inv_gameInit : Inv gameInit := inv_mkGame "blue" true

theorem run_total : ∀ (cs : List (ℕ × String)) {g : Game}, Inv g →
    ∃ g', run g cs = .ok g' ∧ Inv g' ∧ g.turns ≤ g'.turns ∧ g'.score ≤ g.score ∧
      (g.prev_image.isSome = true → g'.prev_image.isSome = true) := by
  intro cs
  induction cs with
  | nil => exact fun {g} hg => ⟨g, rfl, hg, le_refl _, le_refl _, fun h => h⟩
  | cons c cs ih =>
    intro g hg
    obtain ⟨g₁, hstep, hinv1, hmono, hsc, hpi, -, -⟩ := clickStep_total hg c
    obtain ⟨g', hrun, hinv', hmono', hsc', hpi'⟩ := ih hinv1
    refine ⟨g', ?_, hinv', le_trans hmono hmono', le_trans hsc' hsc, fun h => hpi' (hpi h)⟩
    rw [run_cons, hstep]
    exact hrun

theorem wholeTurn_add_two_halves {q : ℚ} (h : wholeTurn q = true) :
    wholeTurn (q + half + half) = true := by
  rw [wholeTurn_iff] at h
  have hq := eq_num_of_den_one h
  have he : q + half + half = ((q.num + 1 : ℤ) : ℚ) := by
    rw [half]
    conv_lhs => rw [hq]
    push_cast
    ring
  rw [wholeTurn_iff, he, Rat.den_intCast]

theorem bool_eq_false_of_ne_true {b : Bool} (h : ¬b = true) : b = false := by
  cases hb : b
  · rfl
  · exact absurd hb h

theorem run_turns : ∀ (cs : List (ℕ × String)) {g : Game}, Inv g →
    ∀ g', run g cs = .ok g' → g'.bound = true →
    g'.turns = g.turns + (cs.length : ℚ) / 2 := by
  intro cs
  induction cs with
  | nil =>
    intro g hg g' hrun hb
    rw [run_nil] at hrun
    injection hrun with h
    subst h
    simp
  | cons c cs ih =>
    intro g hg g' hrun hb'
    obtain ⟨g₁, hstep, hinv1, -, -, -, hbt, hbf⟩ := clickStep_total hg c
    rw [run_cons_ok hstep] at hrun
    by_cases hbg : g.bound = true
    · have ht1 := hbt hbg
      have hrec := ih hinv1 g' hrun hb'
      rw [hrec, ht1, half]
      simp only [List.length_cons]
      push_cast
      ring
    · have hbf' : g.bound = false := bool_eq_false_of_ne_true hbg
      have hgg := hbf hbf'
      subst hgg
      rw [run_unbound hbf'] at hrun
      injection hrun with h
      subst h
      rw [hbf'] at hb'
      exact Bool.noConfusion hb'

theorem remaining_nonneg {g : Game} (hg : Inv g) : 0 ≤ g.remaining_tiles := by
  obtain ⟨-, -, -, -, ⟨j, hj, hrem⟩, -, -, -⟩ := hg
  rw [hrem]
  omega

theorem remaining_ne_zero_of_bound {g : Game} (hg : Inv g) (hb : g.bound = true) :
    g.remaining_tiles ≠ 0 := by
  obtain ⟨-, -, hbt, hterm, -, -, -, -⟩ := hg
  intro h0
  have h1 := hterm.mpr h0
  rw [hb, h1] at hbt
  exact Bool.noConfusion hbt

theorem run_remaining_aux : ∀ (n : ℕ) (cs : List (ℕ × String)) (g : Game),
    cs.length ≤ n → Inv g → g.bound = true → wholeTurn g.turns = true →
    ∀ g', run g cs = .ok g' →
    g'.remaining_tiles = max 0 (g.remaining_tiles - 2 * (eqPairs cs : ℤ)) := by
  intro n
  induction n using Nat.strong_induction_on with
  | _ n ih =>
    intro cs g hlen hg hb hw g' hrun
    have hr0 : 0 ≤ g.remaining_tiles := remaining_nonneg hg
    rcases cs with - | ⟨a, - | ⟨b, rest⟩⟩
    · rw [run_nil] at hrun
      injection hrun with h
      subst h
      show g.remaining_tiles = max 0 (g.remaining_tiles - 2 * ((0 : ℕ) : ℤ))
      rw [max_def]
      split_ifs <;> omega
    · -- a single trailing first click: the tile count is unchanged
      have hwf : wholeTurn (g.turns + half) = false := wholeTurn_add_half hw
      have hstep : clickStep g a = .ok { g with
          turns := g.turns + half
          prev_image := some g.nextId
          nextId := g.nextId + 1
          prev_name := some a.2
          prev_tile := some a.1
          canvas_images := g.canvas_images ++ [g.nextId] } := by
        rw [clickStep, if_pos hb, play_first hwf]
      rw [run_cons_ok hstep, run_nil] at hrun
      injection hrun with h
      subst h
      show g.remaining_tiles = max 0 (g.remaining_tiles - 2 * ((0 : ℕ) : ℤ))
      rw [max_def]
      split_ifs <;> omega
    · -- a full pair of clicks, then the rest
      have hwf : wholeTurn (g.turns + half) = false := wholeTurn_add_half hw
      have hstep₁ : clickStep g a = .ok { g with
          turns := g.turns + half
          prev_image := some g.nextId
          nextId := g.nextId + 1
          prev_name := some a.2
          prev_tile := some a.1
          canvas_images := g.canvas_images ++ [g.nextId] } := by
        rw [clickStep, if_pos hb, play_first hwf]
      obtain ⟨g₁', hstep₁', hinv1, -, -, -, -, -⟩ := clickStep_total hg a
      rw [hstep₁] at hstep₁'
      injection hstep₁' with h1
      rw [← h1] at hinv1
      have hww : wholeTurn (g.turns + half + half) = true := wholeTurn_add_two_halves hw
      obtain ⟨g₂, hplay₂, hts₂, hsc₂, hrm₂, hpn₂, hpt₂, hpi₂, hbd₂, htm₂, hdl₂, hcl₂, -⟩ :=
        play_second_cases { g with
          turns := g.turns + half
          prev_image := some g.nextId
          nextId := g.nextId + 1
          prev_name := some a.2
          prev_tile := some a.1
          canvas_images := g.canvas_images ++ [g.nextId] } b.1 b.2 a.2 hww rfl
      have hstep₂ : clickStep { g with
          turns := g.turns + half
          prev_image := some g.nextId
          nextId := g.nextId + 1
          prev_name := some a.2
          prev_tile := some a.1
          canvas_images := g.canvas_images ++ [g.nextId] } b = .ok g₂ := by
        rw [clickStep, if_pos (show g.bound = true from hb)]
        exact hplay₂
      obtain ⟨g₂', hstep₂', hinv2, -, -, -, -, -⟩ := clickStep_total hinv1 b
      rw [hstep₂] at hstep₂'
      injection hstep₂' with h2
      rw [← h2] at hinv2
      have hrm₂' : g₂.remaining_tiles =
          (if b.2 = a.2 then g.remaining_tiles - 2 else g.remaining_tiles) := hrm₂
      rw [run_cons_ok hstep₁, run_cons_ok hstep₂] at hrun
      have hr_ne : g.remaining_tiles ≠ 0 := remaining_ne_zero_of_bound hg hb
      have hw₂ : wholeTurn g₂.turns = true := by
        rw [hts₂]
        exact hww
      have heq : eqPairs ((a :: b :: rest) : List (ℕ × String)) =
          (if a.2 = b.2 then 1 else 0) + eqPairs rest := rfl
      by_cases hz : g₂.remaining_tiles = 0
      · have hbd₂' : g₂.bound = false := by
          rw [hbd₂, if_pos hz]
        rw [run_unbound hbd₂'] at hrun
        injection hrun with h3
        subst h3
        rw [hz, heq]
        by_cases hab : b.2 = a.2
        · rw [hrm₂', if_pos hab] at hz
          rw [if_pos hab.symm]
          rw [max_def]
          split_ifs <;> (push_cast; try omega)
        · rw [hrm₂', if_neg hab] at hz
          exact absurd hz hr_ne
      · have hbd₂' : g₂.bound = true := by
          rw [hbd₂, if_neg hz]
        have hlt : rest.length < n := by
          simp only [List.length_cons] at hlen
          omega
        have hrec := ih rest.length hlt rest g₂ (le_refl _) hinv2 hbd₂' hw₂ g' hrun
        rw [hrec, heq]
        by_cases hab : b.2 = a.2
        · rw [hrm₂', if_pos hab]
          rw [if_pos hab.symm]
          rw [max_def, max_def]
          split_ifs <;> push_cast at * <;> omega
        · rw [hrm₂', if_neg hab]
          rw [if_neg (fun hc => hab hc.symm)]
          rw [max_def, max_def]
          split_ifs <;> push_cast at * <;> omega

theorem play_second_none {g : Game} {t : ℕ} {nm : String}
    (hw : wholeTurn (g.turns + half) = true) (hpn : g.prev_name = none) :
    play g t nm =
      .error "AttributeError: MatchGame instance has no attribute prev_name" := by
  have hnf : ¬(wholeTurn (g.turns + half) = false) := by
    rw [hw]
    exact fun hc => Bool.noConfusion hc
  simp only [play]
  rw [if_neg hnf, hpn]

theorem bool_eq_true_of_ne_false {b : Bool} (h : ¬b = false) : b = true := by
  cases hb : b
  · exact absurd hb h
  · rfl

theorem play_ok_turns_score {g : Game} {t : ℕ} {nm : String} {g' : Game}
    (h : play g t nm = .ok g') :
    g'.turns = g.turns + half ∧
    g'.score = (if wholeTurn (g.turns + half) = true ∧ 13 < g.turns + half
                then g.score - 10 else g.score) := by
  by_cases hw : wholeTurn (g.turns + half) = false
  · rw [play_first hw] at h
    injection h with h
    rw [← h]
    refine ⟨rfl, ?_⟩
    show g.score = _
    rw [if_neg]
    rintro ⟨h1, -⟩
    rw [hw] at h1
    exact Bool.noConfusion h1
  · have hw' : wholeTurn (g.turns + half) = true := bool_eq_true_of_ne_false hw
    cases hpn : g.prev_name with
    | none =>
      rw [play_second_none hw' hpn] at h
      exact Except.noConfusion h
    | some pn =>
      obtain ⟨g₂, hplay, hts, hsc, -, -, -, -, -, -, -⟩ :=
        play_second_cases g t nm pn hw' hpn
      rw [hplay] at h
      injection h with h
      rw [← h]
      refine ⟨hts, ?_⟩
      rw [hsc]
      by_cases h13 : (13 : ℚ) < g.turns + half
      · rw [if_pos h13, if_pos ⟨hw', h13⟩]
      · rw [if_neg h13, if_neg (fun hc => h13 hc.2)]

theorem play_branch_iff {g : Game} {t : ℕ} {nm : String} {g' : Game}
    (h : play g t nm = .ok g') :
    ((g'.prev_name = some nm ∧ g'.remaining_tiles = g.remaining_tiles ∧
      g'.bound = g.bound) ↔ wholeTurn (g.turns + half) = false) := by
  by_cases hw : wholeTurn (g.turns + half) = false
  · rw [play_first hw] at h
    injection h with h
    rw [← h]
    simp [hw]
  · have hw' : wholeTurn (g.turns + half) = true := bool_eq_true_of_ne_false hw
    cases hpn : g.prev_name with
    | none =>
      rw [play_second_none hw' hpn] at h
      exact Except.noConfusion h
    | some pn =>
      obtain ⟨g₂, hplay, -, -, hrm, hpname, -, -, hbd, -, -, -⟩ :=
        play_second_cases g t nm pn hw' hpn
      rw [hplay] at h
      injection h with h
      rw [← h]
      constructor
      · rintro ⟨h1, h2, -⟩
        exfalso
        rw [hpname, hpn] at h1
        injection h1 with h1
        rw [hrm, if_pos h1.symm] at h2
        omega
      · intro hc
        rw [hw'] at hc
        exact Bool.noConfusion hc

theorem clickStep_score_mono {g g₁ : Game} {c : ℕ × String}
    (h : clickStep g c = .ok g₁) : g₁.score ≤ g.score := by
  rw [clickStep] at h
  by_cases hb : g.bound = true
  · rw [if_pos hb] at h
    obtain ⟨-, hsc⟩ := play_ok_turns_score h
    rw [hsc]
    split_ifs <;> omega
  · rw [if_neg hb] at h
    injection h with h
    rw [← h]

theorem run_score_mono : ∀ (cs : List (ℕ × String)) {g g' : Game},
    run g cs = .ok g' → g'.score ≤ g.score := by
  intro cs
  induction cs with
  | nil =>
    intro g g' h
    rw [run_nil] at h
    injection h with h
    rw [← h]
  | cons c cs ih =>
    intro g g' h
    cases hcs : clickStep g c with
    | error e =>
      rw [run_cons, hcs] at h
      exact Except.noConfusion h
    | ok g₁ =>
      rw [run_cons_ok hcs] at h
      exact le_trans (ih h) (clickStep_score_mono hcs)

theorem inv_of_run {cs : List (ℕ × String)} {g : Game}
    (h : run gameInit cs = .ok g) : Inv g := by
  obtain ⟨g', hrun, hinv, -, -, -⟩ := run_total cs inv_gameInit
  rw [h] at hrun
  injection hrun with h'
  rw [← h'] at hinv
  exact hinv

/-- Claim C1: along every click sequence from a fresh game the score equals
100 minus 10 for each completed pair beyond the 13th (`⌊turns⌋` counts the
completed pairs, so the first 13 pairs are free), and a single processed
click changes the score only when it is the second click of a completed pair
with turn count above 13, in which case exactly 10 is deducted — with no
reference to whether the two clicked names matched. -/
theorem C1_pair_scoring :
    (∀ (cs : List (ℕ × String)) (g : Game), run gameInit cs = .ok g →
      g.score = 100 - 10 * max 0 (⌊g.turns⌋ - 13)) ∧
    (∀ (g : Game) (c : ℕ × String) (g' : Game), clickStep g c = .ok g' →
      g'.score ≠ g.score →
      wholeTurn g'.turns = true ∧ 13 < g'.turns ∧ g'.score = g.score - 10) := by
  constructor
  · intro cs g h
    obtain ⟨-, hscore, -, -, -, -, -⟩ := inv_of_run h
    exact hscore
  · intro g c g' h hne
    rw [clickStep] at h
    by_cases hb : g.bound = true
    · rw [if_pos hb] at h
      obtain ⟨hts, hsc⟩ := play_ok_turns_score h
      rw [hts]
      by_cases hcond : wholeTurn (g.turns + half) = true ∧ 13 < g.turns + half
      · exact ⟨hcond.1, hcond.2, by rw [hsc, if_pos hcond]⟩
      · exfalso
        apply hne
        rw [hsc, if_neg hcond]
    · rw [if_neg hb] at h
      injection h with h
      rw [← h] at hne
      exact absurd rfl hne

/-- Witness for C1 at the concrete two-click sequence `clicks2`. -/
theorem C1_pair_scoring_witness :
    game2.score = 100 - 10 * max 0 (⌊game2.turns⌋ - 13) :=
  C1_pair_scoring.1 clicks2 game2 (by with_unfolding_all rfl)

/-- Claim C5: over tile-click events the score never increases — along any
continuation of any reachable state — and a processed click deducts exactly
10 when it completes a pair with the turn count above 13 and leaves the
score unchanged otherwise. -/
theorem C5_score_monotone :
    (∀ (cs ds : List (ℕ × String)) (g g' : Game),
      run gameInit cs = .ok g → run g ds = .ok g' → g'.score ≤ g.score) ∧
    (∀ (g : Game) (c : ℕ × String) (g' : Game), clickStep g c = .ok g' →
      g'.score ≤ g.score ∧
      (g.bound = true →
        ((wholeTurn g'.turns = true ∧ 13 < g'.turns) → g'.score = g.score - 10) ∧
        (¬(wholeTurn g'.turns = true ∧ 13 < g'.turns) → g'.score = g.score))) := by
  constructor
  · intro cs ds g g' hcs hds
    exact run_score_mono ds hds
  · intro g c g' h
    refine ⟨clickStep_score_mono h, ?_⟩
    intro hb
    rw [clickStep, if_pos hb] at h
    obtain ⟨hts, hsc⟩ := play_ok_turns_score h
    rw [hts]
    constructor
    · intro hcond
      rw [hsc, if_pos hcond]
    · intro hcond
      rw [hsc, if_neg hcond]

/-- Witness for C5 at the concrete first click on a fresh game. -/
theorem C5_score_monotone_witness :
    afterFirstClick.score ≤ gameInit.score ∧
    (gameInit.bound = true →
      ((wholeTurn afterFirstClick.turns = true ∧ 13 < afterFirstClick.turns) →
        afterFirstClick.score = gameInit.score - 10) ∧
      (¬(wholeTurn afterFirstClick.turns = true ∧ 13 < afterFirstClick.turns) →
        afterFirstClick.score = gameInit.score)) :=
  C5_score_monotone.2 gameInit (1, "a.gif") afterFirstClick (by with_unfolding_all rfl)

/-- Claim C8: a processed click advances the turn counter by exactly one
half; after a run that leaves the handler bound the counter equals half the
number of delivered clicks and passes the integrality test `turns % 1 == 0`
exactly when that number is even; and the first-tile branch of `play` —
which records the clicked name and leaves the tile count and the binding
unchanged — is taken exactly when the incremented counter fails the test. -/
theorem C8_half_turns :
    (∀ (g : Game) (c : ℕ × String) (g' : Game), g.bound = true →
      clickStep g c = .ok g' → g'.turns = g.turns + 1 / 2) ∧
    (∀ (cs : List (ℕ × String)) (g : Game), run gameInit cs = .ok g →
      g.bound = true →
      g.turns = (cs.length : ℚ) / 2 ∧ (wholeTurn g.turns = true ↔ 2 ∣ cs.length)) ∧
    (∀ (g : Game) (t : ℕ) (nm : String) (g' : Game), play g t nm = .ok g' →
      ((g'.prev_name = some nm ∧ g'.remaining_tiles = g.remaining_tiles ∧
        g'.bound = g.bound) ↔ wholeTurn (g.turns + 1 / 2) = false)) := by
  refine ⟨?_, ?_, ?_⟩
  · intro g c g' hb h
    rw [clickStep, if_pos hb] at h
    have hts := (play_ok_turns_score h).1
    rw [hts, half]
  · intro cs g hrun hb
    have ht := run_turns cs inv_gameInit g hrun hb
    have ht' : g.turns = (cs.length : ℚ) / 2 := by
      rw [ht]
      show (0 : ℚ) + _ = _
      rw [zero_add]
    exact ⟨ht', by rw [ht']; exact wholeTurn_div_two cs.length⟩
  · intro g t nm g' h
    have hbr := play_branch_iff h
    exact hbr

/-- Witness for C8 at the concrete two-click sequence `clicks2`. -/
theorem C8_half_turns_witness :
    game2.turns = (clicks2.length : ℚ) / 2 ∧
    (wholeTurn game2.turns = true ↔ 2 ∣ clicks2.length) :=
  C8_half_turns.2.1 clicks2 game2 (by with_unfolding_all rfl) (by with_unfolding_all rfl)

/-- Claim C6: in every reachable state the game-over display (final score
and number of tries, with the click handler left unbound) is shown exactly
when no tiles remain, and the handler is bound exactly while it is not
shown; a processed second click from a live state either ends with no tiles
and unbinds input showing the display, or leaves tiles and re-enables input
(after the delay, which the single-threaded model collapses into the step).
-/
theorem C6_terminal_display :
    (∀ (cs : List (ℕ × String)) (g : Game), run gameInit cs = .ok g →
      (g.terminal = true ↔ g.remaining_tiles = 0) ∧ g.bound = !g.terminal) ∧
    (∀ (g : Game) (c : ℕ × String) (g' : Game), g.bound = true →
      g.terminal = false → clickStep g c = .ok g' → wholeTurn g'.turns = true →
      (g'.remaining_tiles = 0 → g'.terminal = true ∧ g'.bound = false) ∧
      (g'.remaining_tiles ≠ 0 → g'.terminal = false ∧ g'.bound = true)) := by
  constructor
  · intro cs g h
    obtain ⟨-, -, hbt, hterm, -, -, -⟩ := inv_of_run h
    exact ⟨hterm, hbt⟩
  · intro g c g' hb hterm h hw'
    rw [clickStep, if_pos hb] at h
    have hts := (play_ok_turns_score h).1
    have hww : wholeTurn (g.turns + half) = true := by
      rw [← hts]
      exact hw'
    cases hpn : g.prev_name with
    | none =>
      rw [play_second_none hww hpn] at h
      exact Except.noConfusion h
    | some pn =>
      obtain ⟨g₂, hplay, -, -, -, -, -, -, hbd, htm, -, -⟩ :=
        play_second_cases g c.1 c.2 pn hww hpn
      rw [hplay] at h
      injection h with h
      rw [← h]
      constructor
      · intro hz
        rw [htm, if_pos hz, hbd, if_pos hz]
        exact ⟨rfl, rfl⟩
      · intro hz
        rw [htm, if_neg hz, hbd, if_neg hz]
        exact ⟨hterm, rfl⟩

/-- Witness for C6 at the concrete two-click sequence `clicks2`. -/
theorem C6_terminal_display_witness :
    (game2.terminal = true ↔ game2.remaining_tiles = 0) ∧
    game2.bound = !game2.terminal :=
  C6_terminal_display.1 clicks2 game2 (by with_unfolding_all rfl)

/-- Claim C9: the second-click comparison is on image names only: from any
state with a whole turn counter, a pair of clicks on any tiles `t₁`, `t₂` —
the very same tile included, and tiles of an already-matched image included,
since no state distinguishes them — is treated as a match exactly when the
two reported names are equal, decrementing `remaining_tiles` by 2, and
leaves the tile count unchanged on distinct names. -/
theorem C9_name_match :
    ∀ (g : Game) (t₁ t₂ : ℕ) (n₁ n₂ : String) (g₁ : Game),
      wholeTurn g.turns = true → play g t₁ n₁ = .ok g₁ →
      ∃ g₂, play g₁ t₂ n₂ = .ok g₂ ∧
        (n₂ = n₁ → g₂.remaining_tiles = g.remaining_tiles - 2) ∧
        (n₂ ≠ n₁ → g₂.remaining_tiles = g.remaining_tiles) := by
  intro g t₁ t₂ n₁ n₂ g₁ hw h
  have hwf : wholeTurn (g.turns + half) = false := wholeTurn_add_half hw
  rw [play_first hwf] at h
  injection h with h
  have ht₁ : g₁.turns = g.turns + half := by rw [← h]
  have hpn₁ : g₁.prev_name = some n₁ := by rw [← h]
  have hrem₁ : g₁.remaining_tiles = g.remaining_tiles := by rw [← h]
  have hww : wholeTurn (g₁.turns + half) = true := by
    rw [ht₁]
    exact wholeTurn_add_two_halves hw
  obtain ⟨g₂, hplay, -, -, hrm, -, -, -, -, -, -, -⟩ :=
    play_second_cases g₁ t₂ n₂ n₁ hww hpn₁
  refine ⟨g₂, hplay, ?_, ?_⟩
  · intro he
    rw [hrm, if_pos he, hrem₁]
  · intro hne
    rw [hrm, if_neg hne, hrem₁]

/-- Witness for C9: two clicks on the very same tile of a fresh game count
as a match. -/
theorem C9_name_match_witness :
    ∃ g₂, play afterFirstClick 1 "a.gif" = .ok g₂ ∧
      ("a.gif" = "a.gif" → g₂.remaining_tiles = gameInit.remaining_tiles - 2) ∧
      ("a.gif" ≠ "a.gif" → g₂.remaining_tiles = gameInit.remaining_tiles) :=
  C9_name_match gameInit 1 1 "a.gif" "a.gif" afterFirstClick (by with_unfolding_all rfl)
    (by with_unfolding_all rfl)

/-- Claim C4 (amended): the remaining tile count after any click sequence is
16 minus 2 for each completed pair of equal image names (clamped at 0, where
clicking stops), so it reaches 0 exactly when 8 name-equal pairs completed —
which, because the comparison is by name only, need not mean that all 8
image identities were matched. -/
theorem C4_remaining_amended :
    ∀ (cs : List (ℕ × String)) (g : Game), run gameInit cs = .ok g →
      g.remaining_tiles = max 0 (16 - 2 * (eqPairs cs : ℤ)) ∧
      (g.remaining_tiles = 0 ↔ 8 ≤ eqPairs cs) := by
  intro cs g h
  have hr := run_remaining_aux cs.length cs gameInit (le_refl _) inv_gameInit rfl
    (by with_unfolding_all rfl) g h
  have h16 : gameInit.remaining_tiles = 16 := rfl
  rw [h16] at hr
  refine ⟨hr, ?_⟩
  rw [hr]
  constructor
  · intro h0
    rw [max_def] at h0
    by_contra hc
    push_neg at hc
    split_ifs at h0 <;> omega
  · intro h8
    rw [max_def]
    split_ifs <;> omega

/-- Witness for the amended C4 at the concrete two-click sequence. -/
theorem C4_remaining_amended_witness :
    game2.remaining_tiles = max 0 (16 - 2 * (eqPairs clicks2 : ℤ)) ∧
    (game2.remaining_tiles = 0 ↔ 8 ≤ eqPairs clicks2) :=
  C4_remaining_amended clicks2 game2 (by with_unfolding_all rfl)

/-- Claim C4 is false as stated: sixteen clicks on the single tile bearing
`a.gif` (a legal sequence — the tile stays clickable throughout) drive
`remaining_tiles` to 0, although the only image name ever clicked is
`a.gif`, so at most one of the 8 image-identity pairs can have been
matched. -/
theorem C4_remaining_counterexample :
    run gameInit sameTileClicks = .ok cexGame ∧
    cexGame.remaining_tiles = 0 ∧
    (sameTileClicks.map Prod.snd).dedup = ["a.gif"] := by
  refine ⟨by with_unfolding_all rfl, rfl, by decide⟩

/-- Claim C3 states the evident intent of `restart` (its docstring promises
a reset), and whenever `restart` runs to completion it does reset score to
100, turns to 0 and remaining tiles to 16 — but invoked on a fresh game,
before any tile click, it raises `AttributeError` on the uninitialized
`prev_image` attribute and resets nothing, contradicting the claim. -/
theorem C3_restart_resets :
    (∀ g g' : Game, restart g = .ok g' →
      g'.score = 100 ∧ g'.turns = 0 ∧ g'.remaining_tiles = 16) ∧
    restart gameInit =
      .error "AttributeError: MatchGame instance has no attribute prev_image" := by
  constructor
  · intro g g' h
    rw [restart] at h
    cases hpi : g.prev_image with
    | none =>
      rw [hpi] at h
      exact Except.noConfusion h
    | some i =>
      rw [hpi] at h
      have h2 : (if g.canvas_images = [] then
            (Except.ok { g with
              score := 100
              turns := 0
              remaining_tiles := 16
              prev_image := some i
              bound := true
              terminal := false } : Except String Game)
          else
            .error "StopIteration: the restart re-tag loop hits a still-displayed image")
          = Except.ok g' := h
      by_cases hcv : g.canvas_images = []
      · rw [if_pos hcv] at h2
        injection h2 with h2
        rw [← h2]
        exact ⟨rfl, rfl, rfl⟩
      · rw [if_neg hcv] at h2
        exact Except.noConfusion h2
  · rfl

/-- Witness for C3 at a concrete state with `prev_image` set. -/
theorem C3_restart_resets_witness :
    restartedGame.score = 100 ∧ restartedGame.turns = 0 ∧
    restartedGame.remaining_tiles = 16 :=
  C3_restart_resets.1 restartableGame restartedGame (by with_unfolding_all rfl)

/-- Claim C10: `restart` requires at least one prior first-tile click in the
session: on a fresh game line 103 reads `self.prev_image`, which `__init__`
never initializes, so it fails with `AttributeError` and resets nothing —
hence any state in which `restart` completes was reached by at least one
click.  Moreover a prior click makes `restart` complete exactly at a pair
boundary (integer turn count, the pair resolved and its images removed):
mid-pair the still-displayed first-click image makes the re-tag loop of
lines 111-113 fail before the resets instead. -/
theorem C10_restart_requires_click :
    restart gameInit =
      .error "AttributeError: MatchGame instance has no attribute prev_image" ∧
    (∀ (cs : List (ℕ × String)) (g : Game), run gameInit cs = .ok g →
      (∃ g', restart g = .ok g') → cs ≠ []) ∧
    (∀ (cs : List (ℕ × String)) (g : Game), run gameInit cs = .ok g →
      cs ≠ [] → wholeTurn g.turns = true → ∃ g', restart g = .ok g') ∧
    (∀ (cs : List (ℕ × String)) (g : Game), run gameInit cs = .ok g →
      wholeTurn g.turns = false →
      restart g =
        .error "StopIteration: the restart re-tag loop hits a still-displayed image") := by
  refine ⟨rfl, ?_, ?_, ?_⟩
  · intro cs g hrun hok hnil
    subst hnil
    rw [run_nil] at hrun
    injection hrun with h
    obtain ⟨g', hg'⟩ := hok
    rw [← h] at hg'
    have he : restart gameInit =
        .error "AttributeError: MatchGame instance has no attribute prev_image" := rfl
    rw [he] at hg'
    exact Except.noConfusion hg'
  · intro cs g hrun hne hwhole
    obtain ⟨-, -, -, -, -, -, hpi, hcanvas⟩ := inv_of_run hrun
    have hcv : g.canvas_images = [] := hcanvas.1 hwhole
    obtain ⟨c, cs', rfl⟩ : ∃ c cs', cs = c :: cs' := by
      cases cs with
      | nil => exact absurd rfl hne
      | cons c cs' => exact ⟨c, cs', rfl⟩
    obtain ⟨g₁, hstep, hinv1, -, -, -, hbt, -⟩ := clickStep_total inv_gameInit c
    rw [run_cons_ok hstep] at hrun
    obtain ⟨g₂, hr', -, hmono, -, -⟩ := run_total cs' hinv1
    rw [hrun] at hr'
    injection hr' with h'
    rw [← h'] at hmono
    have hhalf : half ≤ g.turns := by
      have ht := hbt rfl
      rw [ht] at hmono
      have h0 : half ≤ gameInit.turns + half := by
        show half ≤ (0 : ℚ) + half
        rw [zero_add]
      exact le_trans h0 hmono
    have hps : g.prev_image.isSome = true := hpi hhalf
    obtain ⟨i, hi⟩ := Option.isSome_iff_exists.mp hps
    refine ⟨{ g with
        score := 100
        turns := 0
        remaining_tiles := 16
        bound := true
        terminal := false }, ?_⟩
    rw [restart, hi]
    show (if g.canvas_images = [] then _ else _) = _
    rw [if_pos hcv]
  · intro cs g hrun hwhole
    obtain ⟨-, -, -, -, -, -, -, hcanvas⟩ := inv_of_run hrun
    obtain ⟨i, hpieq, hcveq⟩ := hcanvas.2 hwhole
    have hnec : ¬(g.canvas_images = []) := by
      intro hc
      rw [hcveq] at hc
      exact List.noConfusion hc
    rw [restart, hpieq]
    show (if g.canvas_images = [] then _ else _) = _
    rw [if_neg hnec]

/-- Witness for C10 at the concrete resolved two-click state `game2`. -/
theorem C10_restart_requires_click_witness :
    ∃ g', restart game2 = .ok g' :=
  C10_restart_requires_click.2.2.1 clicks2 game2 (by with_unfolding_all rfl)
    (by decide) (by with_unfolding_all rfl)

/-- Claim C7: startup validation of the image folder fails (raising the
`ArgumentTypeError` that argparse reports as a usage error) exactly when the
folder does not exist or lists fewer than 8 files whose `os.path.splitext`
extension is `.gif`; otherwise the folder path is returned unchanged. -/
theorem C7_validate_usage :
    ∀ (folder_ex : Bool) (entries : List String) (path : String),
      ((∃ msg, validate_images folder_ex entries path = .error msg) ↔
        (folder_ex = false ∨ (gifNames entries).length < 8)) ∧
      (validate_images folder_ex entries path = .ok path ↔
        (folder_ex = true ∧ 8 ≤ (gifNames entries).length)) := by
  intro fe entries path
  cases fe
  · constructor
    · constructor
      · intro _
        exact Or.inl rfl
      · intro _
        exact ⟨path ++ " is not a valid folder", by rw [validate_images, if_pos rfl]⟩
    · constructor
      · intro h
        rw [validate_images, if_pos rfl] at h
        exact Except.noConfusion h
      · rintro ⟨h, -⟩
        exact Bool.noConfusion h
  · by_cases h8 : (gifNames entries).length < 8
    · have hval : validate_images true entries path =
          .error (path ++ " must contain at least 8 gif images") := by
        rw [validate_images, if_neg (fun hc => Bool.noConfusion hc), if_pos h8]
      constructor
      · constructor
        · intro _
          exact Or.inr h8
        · intro _
          exact ⟨path ++ " must contain at least 8 gif images", hval⟩
      · constructor
        · intro hok
          rw [hval] at hok
          exact Except.noConfusion hok
        · rintro ⟨-, hge⟩
          omega
    · have hval : validate_images true entries path = .ok path := by
        rw [validate_images, if_neg (fun hc => Bool.noConfusion hc), if_neg h8]
      constructor
      · constructor
        · rintro ⟨msg, hmsg⟩
          rw [hval] at hmsg
          exact Except.noConfusion hmsg
        · rintro (hc | hc)
          · exact Bool.noConfusion hc
          · exact absurd hc h8
      · exact ⟨fun _ => ⟨rfl, by omega⟩, fun _ => hval⟩

/-- Witness for C7 at a concrete existing folder with 8 gif files and at a
missing folder. -/
theorem C7_validate_usage_witness :
    validate_images true entries8 "images" = .ok "images" ∧
    ∃ msg, validate_images false entries8 "images" = .error msg :=
  ⟨(C7_validate_usage true entries8 "images").2.mpr ⟨rfl, by decide⟩,
   (C7_validate_usage false entries8 "images").1.mpr (Or.inl rfl)⟩

/-- Claim C2 (amended): when the folder lists exactly 8 gif files (with
distinct names, as `os.listdir` yields), every shuffle of the doubled name
list — at `__init__` and at every restart, which reshuffles the same
doubled list — puts each image identity on exactly two of the 16 tiles. -/
theorem C2_two_of_each :
    ∀ entries : List String, entries.Nodup → (gifNames entries).length = 8 →
      ∀ shuffled : List String, shuffled.Perm (image_names (gifNames entries)) →
      ∀ nm ∈ gifNames entries, (assignTiles shuffled).count nm = 2 := by
  intro entries hnd h8 shuffled hperm nm hnm
  have hnd' : (gifNames entries).Nodup := hnd.filter _
  have hlen : shuffled.length ≤ 16 := by
    rw [hperm.length_eq, image_names, List.length_append, h8]
  have htake : assignTiles shuffled = shuffled := by
    rw [assignTiles]
    exact List.take_of_length_le hlen
  rw [htake, hperm.count_eq, image_names, List.count_append,
    List.count_eq_one_of_mem hnd' hnm]

/-- Witness for the amended C2 at a concrete folder of 8 gif files and the
identity shuffle. -/
theorem C2_two_of_each_witness :
    (assignTiles (image_names (gifNames entries8))).count "a.gif" = 2 :=
  C2_two_of_each entries8 (by decide) (by decide)
    (image_names (gifNames entries8)) (List.Perm.refl _) "a.gif" (by decide)

/-- Claim C2 is false as stated: the folder `gifs9` with 9 gif files passes
argument validation, yet the shuffle `shuffled18` of its doubled name list
leaves `i.gif` on none of the 16 tiles, not on exactly two. -/
theorem C2_two_of_each_counterexample :
    validate_images true gifs9 "images" = .ok "images" ∧
    gifs9.Nodup ∧
    shuffled18.Perm (image_names (gifNames gifs9)) ∧
    "i.gif" ∈ gifNames gifs9 ∧
    (assignTiles shuffled18).count "i.gif" = 0 := by
  refine ⟨by decide, by decide, by decide, by decide, by decide⟩

end Concentration
